import Mathlib

/-!
Shallow embedding of `homeassistant/components/stream/core.py`.

Python values are modelled as follows:
* `bytes` values are `List ℕ` (one entry per byte);
* Python `float` durations are `ℚ` (only ordering and fixed-point
  formatting of durations matter to the code under verification);
* the insertion-ordered `dict[int, Part]` is an association list
  `List (ℕ × Part)`; Python 3.7 dicts preserve insertion order and
  assignment to an existing key overwrites in place;
* `datetime.datetime` is a record of calendar fields;
* the mutable attributes of `Segment`, `IdleTimer` and `StreamOutput`
  are threaded explicitly: each method returns the updated record.
-/

namespace HAStream

abbrev Bytes := List ℕ

/-- `class Part`: an immutable fragment of encoded media. -/
structure Part where
  duration : ℚ
  has_keyframe : Bool
  data : Bytes
deriving DecidableEq

/-- Calendar fields of a `datetime.datetime` value (UTC). -/
structure DateTime where
  year : ℕ
  month : ℕ
  day : ℕ
  hour : ℕ
  minute : ℕ
  second : ℕ
  microsecond : ℕ
deriving DecidableEq

/-- `class Segment`: one playlist-addressable chunk.  The
`_stream_outputs` attribute is modelled as an explicit argument of the
operations that notify outputs (`mkSegment`, `async_add_part`), which
avoids the mutual reference between `Segment` and `StreamOutput`.
The `hls_playlist_template`/`hls_playlist_parts` caches default to
`None` in the source and are only ever tested for truthiness, so they
are modelled as `String`s defaulting to `""` (`None` and `""` are both
falsy and neither is otherwise observable). -/
structure Segment where
  sequence : ℕ
  init : Bytes
  duration : ℚ
  stream_id : ℕ
  parts_by_byterange : List (ℕ × Part)
  start_time : DateTime
  hls_playlist_template : String
  hls_playlist_parts : String
  hls_num_parts_rendered : ℕ
  hls_playlist_complete : Bool
deriving DecidableEq

/-- Python `d[k] = v` on an insertion-ordered dict: overwrite in place
when the key is present, append otherwise. -/
def dictInsert (l : List (ℕ × Part)) (k : ℕ) (p : Part) : List (ℕ × Part) :=
  if l.any (fun e => e.1 = k) then
    l.map (fun e => if e.1 = k then (k, p) else e)
  else l ++ [(k, p)]

/-- Python `d.get(k)`: the value stored at `k`, if any. -/
def dictGet (l : List (ℕ × Part)) (k : ℕ) : Option Part :=
  (l.find? (fun e => e.1 = k)).map (fun e => e.2)

namespace Segment

/-- `Segment.complete`: `self.duration > 0`. -/
def complete (s : Segment) : Bool := 0 < s.duration

/-- `Segment.data_size`: `0` for an empty dict, otherwise the key of the
last inserted part (`next(reversed(self.parts_by_byterange.items()))`)
plus that part's length. -/
def data_size (s : Segment) : ℕ :=
  match s.parts_by_byterange.getLast? with
  | none => 0
  | some e => e.1 + e.2.data.length

/-- `Segment.get_data`: concatenation of all parts' bytes in storage
order. -/
def get_data (s : Segment) : Bytes :=
  (s.parts_by_byterange.map (fun e => e.2.data)).flatten

/-- Python `data[:n]` for an `Int` bound `n` (a negative bound counts
from the end, as in Python slicing). -/
def pySliceTo (data : Bytes) (n : ℤ) : Bytes :=
  if 0 ≤ n then data.take n.toNat
  else data.take ((data.length : ℤ) + n).toNat

/-- `Segment.get_aggregating_bytes(start_loc, end_loc)`.  The source is
a generator whose loop is
`while (part := self.parts_by_byterange.get(pos)) or not self.complete`;
the model returns the list of yielded chunks, and is fuel-indexed
because the loop spins (yielding `b""` forever) while the segment is
incomplete and no part exists at the cursor; `none` means the fuel ran
out before the generator terminated. -/
def get_aggregating_bytes (s : Segment) : ℕ → ℕ → ℕ → Option (List Bytes)
  | 0, _, _ => none
  | fuel + 1, pos, end_loc =>
    match dictGet s.parts_by_byterange pos with
    | none =>
      if s.complete then some []
      else (get_aggregating_bytes s fuel pos end_loc).map (fun rest => [] :: rest)
    | some part =>
      let pos' := pos + part.data.length
      if end_loc ≤ pos' then
        some [pySliceTo part.data ((part.data.length : ℤ) + (end_loc : ℤ) - (pos' : ℤ))]
      else (get_aggregating_bytes s fuel pos' end_loc).map (fun rest => part.data :: rest)

end Segment

/-! ### Text rendering helpers (decimal formatting, `str.format`) -/

/-- Decimal digit character. -/
def digitChar (d : ℕ) : Char :=
  if d = 0 then '0' else if d = 1 then '1' else if d = 2 then '2'
  else if d = 3 then '3' else if d = 4 then '4' else if d = 5 then '5'
  else if d = 6 then '6' else if d = 7 then '7' else if d = 8 then '8' else '9'

/-- Digits of `n` in order, fuel-indexed (fuel `n` is always enough). -/
def natStrAux : ℕ → ℕ → List Char
  | 0, _ => []
  | fuel + 1, n => if n = 0 then [] else natStrAux fuel (n / 10) ++ [digitChar (n % 10)]

/-- Decimal rendering of a natural number, modelling Python f-string
interpolation of a non-negative `int`. -/
def natStr (n : ℕ) : String :=
  if n = 0 then "0" else String.mk (natStrAux n n)

/-- Left-pad with `'0'` to width `w`. -/
def padZeros (w : ℕ) (s : String) : String :=
  String.mk (List.replicate (w - s.length) '0') ++ s

/-- Python `f"{q:.3f}"` for the non-negative durations used by the
stream code: fixed-point with three decimals, rounding half up.  The
scaled value is `⌊q * 1000 + 1/2⌋`, written with integer floor
division over `q.num`/`q.den` so that it evaluates by pure `Int`
arithmetic. -/
def fmt3 (q : ℚ) : String :=
  let scaled : ℕ := ((q.num * 2000 + (q.den : ℤ)).fdiv (2 * (q.den : ℤ))).toNat
  natStr (scaled / 1000) ++ "." ++ padZeros 3 (natStr (scaled % 1000))

/-- `datetime.strftime("%Y-%m-%dT%H:%M:%S.%f")`: zero-padded calendar
fields with a six-digit microsecond part. -/
def strftimeYmdHMSf (t : DateTime) : String :=
  padZeros 4 (natStr t.year) ++ "-" ++ padZeros 2 (natStr t.month) ++ "-"
    ++ padZeros 2 (natStr t.day) ++ "T" ++ padZeros 2 (natStr t.hour) ++ ":"
    ++ padZeros 2 (natStr t.minute) ++ ":" ++ padZeros 2 (natStr t.second) ++ "."
    ++ padZeros 6 (natStr t.microsecond)

/-- Replace the first `"\x7b\x7d"` placeholder by `a`, leaving the rest
of the text untouched (character-list worker for `pyFormat`). -/
def fmtAux (a : List Char) : List Char → List Char
  | [] => []
  | [c] => [c]
  | c :: d :: rest =>
    if c = '\x7b' ∧ d = '\x7d' then a ++ rest
    else c :: fmtAux a (d :: rest)

/-- Python `template.format(arg)` for the templates built here: every
reachable template holds at most one `"\x7b\x7d"` placeholder, which is
replaced by `arg`; a template without a placeholder is returned
unchanged. -/
def pyFormat (template arg : String) : String :=
  String.mk (fmtAux arg.data template.data)

/-- Python truthiness promotion `[x] if x else []` used on the cached
playlist strings. -/
def promote (x : String) : List String := if x = "" then [] else [x]

/-- Split a character list at newlines (observation helper used to
state which lines a rendered playlist fragment contains). -/
def splitLinesAux : List Char → List (List Char)
  | [] => [[]]
  | c :: rest =>
    match splitLinesAux rest with
    | [] => [[]]
    | l :: ls => if c = '\n' then [] :: l :: ls else (c :: l) :: ls

/-- The lines of a rendered playlist fragment. -/
def hlsLines (s : String) : List String := (splitLinesAux s.data).map String.mk

namespace Segment

/-- One `#EXT-X-PART` line of `_render_hls_template`. -/
def partLine (sequence : ℕ) (http_range_start : ℕ) (part : Part) : String :=
  "#EXT-X-PART:DURATION=" ++ fmt3 part.duration ++ ",URI=\"./segment/"
    ++ natStr sequence ++ ".m4s\",BYTERANGE=\"" ++ natStr part.data.length
    ++ "@" ++ natStr http_range_start ++ "\""
    ++ (if part.has_keyframe then ",INDEPENDENT=YES" else "")

/-- `Segment._render_hls_template(last_stream_id, render_parts)`:
returns the (re)built template and the segment with updated cache
fields `hls_playlist_template`, `hls_playlist_parts`,
`hls_num_parts_rendered` and `hls_playlist_complete`. -/
def render_hls_template (s : Segment) (last_stream_id : ℕ) (render_parts : Bool) :
    String × Segment :=
  if s.hls_playlist_complete then (s.hls_playlist_template, s)
  else
    -- Promote str to list[str] to allow appends and joins
    let playlist_template := promote s.hls_playlist_template
    let playlist_parts := promote s.hls_playlist_parts
    let playlist_template :=
      if playlist_template.isEmpty then
        (if last_stream_id ≠ s.stream_id then ["#EXT-X-DISCONTINUITY"] else [])
          ++ ["\x7b\x7d"]
      else playlist_template
    let playlist_parts :=
      if render_parts then
        playlist_parts ++
          ((s.parts_by_byterange.drop s.hls_num_parts_rendered).map
            (fun e => partLine s.sequence e.1 e.2))
      else playlist_parts
    let playlist_template :=
      if s.complete then
        playlist_template.dropLast ++
          ["\x7b\x7d#EXT-X-PROGRAM-DATE-TIME:"
              ++ (strftimeYmdHMSf s.start_time).dropRight 3 ++ "Z",
            "#EXTINF:" ++ fmt3 s.duration ++ ",",
            "./segment/" ++ natStr s.sequence ++ ".m4s"]
      else playlist_template
    let playlist_parts :=
      if s.complete then playlist_parts ++ [""] else playlist_parts
    let tmpl := String.intercalate "\n" playlist_template
    let prts := String.intercalate "\n" playlist_parts
    (tmpl,
      { s with
        hls_playlist_template := tmpl
        hls_playlist_parts := prts
        hls_num_parts_rendered := s.parts_by_byterange.length
        hls_playlist_complete := s.complete })

/-- The `#EXT-X-PRELOAD-HINT` line appended by `render_hls` when
`add_hint` is set. -/
def preloadHintLine (sequence start : ℕ) : String :=
  "#EXT-X-PRELOAD-HINT:TYPE=PART,URI=\"./segment/" ++ natStr sequence
    ++ ".m4s\",BYTERANGE-START=" ++ natStr start

/-- `Segment.render_hls(last_stream_id, render_parts, add_hint)`. -/
def render_hls (s : Segment) (last_stream_id : ℕ) (render_parts add_hint : Bool) :
    String × Segment :=
  let ts := render_hls_template s last_stream_id render_parts
  let playlist_template := ts.1
  let s := ts.2
  if !add_hint then
    (pyFormat playlist_template (if render_parts then s.hls_playlist_parts else ""), s)
  else
    let sequence := if s.complete then s.sequence + 1 else s.sequence
    let start := if s.complete then 0 else s.data_size
    (pyFormat (String.intercalate "\n" [playlist_template, preloadHintLine sequence start])
        s.hls_playlist_parts,
      s)

end Segment

/-! ### IdleTimer

`async_call_later(hass, timeout, fire)` is modelled by a list of
scheduled entries owned by the event loop.  Time is a natural-number
clock; `tick t` models the event loop reaching time `t` and running
every due, un-cancelled, not-yet-run deferral (each invokes
`IdleTimer.fire`).  The unsubscribe callable returned by
`async_call_later` is modelled by the entry id stored in `_unsub`;
calling it marks the entry cancelled. -/

/-- One deferral created by `async_call_later`. -/
structure SchedEntry where
  id : ℕ
  due : ℕ
  cancelled : Bool
  done : Bool
deriving DecidableEq

/-- The state of one `IdleTimer` together with its scheduled deferrals
and the log of times at which the idle callback was invoked. -/
structure IdleTimerSys where
  timeout : ℕ
  unsub : Option ℕ
  idle : Bool
  entries : List SchedEntry
  nextId : ℕ
  fired : List ℕ
deriving DecidableEq

namespace IdleTimerSys

/-- `IdleTimer.__init__`. -/
def freshTimer (timeout : ℕ) : IdleTimerSys :=
  { timeout := timeout, unsub := none, idle := false, entries := [], nextId := 0,
    fired := [] }

/-- `async_call_later(self._hass, self._timeout, self.fire)` at time
`now`: append a fresh entry and return its id. -/
def schedLater (now : ℕ) (s : IdleTimerSys) : IdleTimerSys × ℕ :=
  ({ s with
      entries := s.entries ++ [⟨s.nextId, now + s.timeout, false, false⟩]
      nextId := s.nextId + 1 },
    s.nextId)

/-- `IdleTimer.start` at time `now`. -/
def timerStart (now : ℕ) (s : IdleTimerSys) : IdleTimerSys :=
  let s := { s with idle := false }
  match s.unsub with
  | some _ => s
  | none =>
    let r := schedLater now s
    { r.1 with unsub := some r.2 }

/-- `IdleTimer.clear`: cancel the deferral `_unsub` points at, if any.
Note that `_unsub` itself is left in place. -/
def timerClear (s : IdleTimerSys) : IdleTimerSys :=
  match s.unsub with
  | none => s
  | some i =>
    { s with
      entries := s.entries.map (fun e => if e.id = i then { e with cancelled := true } else e) }

/-- `IdleTimer.awake` at time `now`. -/
def timerAwake (now : ℕ) (s : IdleTimerSys) : IdleTimerSys :=
  let s := { s with idle := false }
  let s := timerClear s
  let r := schedLater now s
  { r.1 with unsub := some r.2 }

/-- `IdleTimer.fire` invoked at time `now`: set `idle`, drop the
handle, and invoke (log) the idle callback. -/
def timerFire (now : ℕ) (s : IdleTimerSys) : IdleTimerSys :=
  { s with idle := true, unsub := none, fired := s.fired ++ [now] }

/-- A deferral that can still run at time `t`. -/
def activeAt (t : ℕ) (e : SchedEntry) : Bool :=
  e.due ≤ t && !e.cancelled && !e.done

/-- A deferral that can still run at some time. -/
def activeE (e : SchedEntry) : Bool := !e.cancelled && !e.done

/-- The event loop reaching time `t`: every due, un-cancelled deferral
that has not run yet runs `fire` once. -/
def tick (t : ℕ) (s : IdleTimerSys) : IdleTimerSys :=
  let dueNow := s.entries.filter (activeAt t)
  let s' :=
    { s with
      entries := s.entries.map (fun e => if activeAt t e then { e with done := true } else e) }
  dueNow.foldl (fun acc _ => timerFire t acc) s'

/-- Run the event loop through the given sequence of times. -/
def runTicks (ticks : List ℕ) (s : IdleTimerSys) : IdleTimerSys :=
  ticks.foldl (fun s t => tick t s) s

/-- Whether the handle in `_unsub` still points at a live deferral. -/
def hasActivePending (s : IdleTimerSys) : Bool :=
  match s.unsub with
  | none => false
  | some i => s.entries.any (fun e => e.id = i && activeE e)

end IdleTimerSys

/-! ### StreamOutput -/

/-- An `asyncio.Event` together with the consumers currently suspended
on `wait()` (identified by opaque tokens). -/
structure EventState where
  value : Bool
  waiters : List ℕ
deriving DecidableEq

/-- `Event.set()`: mark the event set and wake every waiter; returns
the new state and the list of woken waiters. -/
def eventSet (e : EventState) : EventState × List ℕ :=
  ({ value := true, waiters := [] }, e.waiters)

/-- `Event.clear()`. -/
def eventClear (e : EventState) : EventState :=
  { e with value := false }

open IdleTimerSys in
/-- `class StreamOutput` (its `_hass` handle is implicit in the model;
`deque(maxlen=deque_maxlen)` is split into the current list and the
bound). -/
structure StreamOutput where
  idle_timer : IdleTimerSys
  event : EventState
  part_event : EventState
  segments : List Segment
  maxlen : Option ℕ
deriving DecidableEq

namespace StreamOutput

/-- `StreamOutput.__init__(hass, idle_timer, deque_maxlen)`. -/
def mkStreamOutput (idle_timer : IdleTimerSys) (deque_maxlen : Option ℕ) : StreamOutput :=
  { idle_timer := idle_timer, event := ⟨false, []⟩, part_event := ⟨false, []⟩,
    segments := [], maxlen := deque_maxlen }

/-- `collections.deque.append` with a `maxlen`: evict from the left
when full. -/
def dequeAppend (maxlen : Option ℕ) (l : List Segment) (x : Segment) : List Segment :=
  let l' := l ++ [x]
  match maxlen with
  | none => l'
  | some n => l'.drop (l'.length - n)

/-- `StreamOutput.get_segments`. -/
def get_segments (o : StreamOutput) : List Segment := o.segments

/-- A consumer suspending in `StreamOutput.recv` (its
`await self._event.wait()`), identified by token `w`. -/
def recvWait (o : StreamOutput) (w : ℕ) : StreamOutput :=
  { o with event := { o.event with waiters := o.event.waiters ++ [w] } }

/-- A consumer suspending in `StreamOutput.part_recv` (its
`await self._part_event.wait()`), identified by token `w`. -/
def partRecvWait (o : StreamOutput) (w : ℕ) : StreamOutput :=
  { o with part_event := { o.part_event with waiters := o.part_event.waiters ++ [w] } }

/-- `StreamOutput.part_put`: `self._part_event.set()` then
`self._part_event.clear()`. -/
def part_put (o : StreamOutput) : StreamOutput :=
  let r := eventSet o.part_event
  { o with part_event := eventClear r.1 }

/-- `StreamOutput._async_put(segment)` running on the event loop at
time `now` (this is what `put` schedules via
`loop.call_soon_threadsafe`); returns the new state and the waiters
woken by `self._event.set()`. -/
def async_put (now : ℕ) (o : StreamOutput) (segment : Segment) : StreamOutput × List ℕ :=
  let o := { o with idle_timer := IdleTimerSys.timerStart now o.idle_timer }
  let o := { o with segments := dequeAppend o.maxlen o.segments segment }
  let r := eventSet o.event
  ({ o with event := eventClear r.1 }, r.2)

/-- `StreamOutput.cleanup`: `self._event.set()` (with no `clear`),
cancel the idle timer, reset the history to a fresh deque with the
same `maxlen`; returns the woken waiters. -/
def cleanup (o : StreamOutput) : StreamOutput × List ℕ :=
  let r := eventSet o.event
  let o := { o with event := r.1 }
  let o := { o with idle_timer := IdleTimerSys.timerClear o.idle_timer }
  ({ o with segments := ([] : List Segment) }, r.2)

end StreamOutput

/-! ### Segment construction and part appends (producer side) -/

namespace Segment

/-- `attr` constructor of `Segment` before `__attrs_post_init__`,
with the producer-supplied fields; cache fields take their declared
defaults. -/
def newSegment (sequence : ℕ) (init : Bytes) (duration : ℚ) (stream_id : ℕ)
    (start_time : DateTime) : Segment :=
  { sequence := sequence, init := init, duration := duration, stream_id := stream_id,
    parts_by_byterange := [], start_time := start_time, hls_playlist_template := "",
    hls_playlist_parts := "", hls_num_parts_rendered := 0, hls_playlist_complete := false }

/-- Constructing a `Segment(...)` whose `_stream_outputs` are `outs`:
`__attrs_post_init__` runs `output.put(self)` for every registered
output (each `put` hands `_async_put` to the event loop, reached here
at time `now`). -/
def mkSegment (sequence : ℕ) (init : Bytes) (duration : ℚ) (stream_id : ℕ)
    (start_time : DateTime) (outs : List StreamOutput) (now : ℕ) :
    Segment × List StreamOutput :=
  let seg := newSegment sequence init duration stream_id start_time
  (seg, outs.map (fun o => (StreamOutput.async_put now o seg).1))

/-- `Segment.async_add_part(part, duration)` on a segment registered
with outputs `outs`: store the part at key `self.data_size`, set the
duration, and run `output.part_put()` on every registered output. -/
def async_add_part (s : Segment) (part : Part) (duration : ℚ)
    (outs : List StreamOutput) : Segment × List StreamOutput :=
  ({ s with
      parts_by_byterange := dictInsert s.parts_by_byterange s.data_size part
      duration := duration },
    outs.map StreamOutput.part_put)

/-- The segment state after a sequence of `async_add_part` calls
(ignoring the notified outputs). -/
def runAdds (s : Segment) (calls : List (Part × ℚ)) : Segment :=
  calls.foldl (fun s c => (async_add_part s c.1 c.2 []).1) s

end Segment

/-! ### Lemmas about the idle-timer event loop -/

namespace IdleTimerSys

lemma filter_single {α} (p q : α → Bool) (e : α) :
    ∀ l : List α, (∀ x ∈ l, p x = true → q x = true) → l.filter q = [e] →
      p e = true → l.filter p = [e] := by
  intro l
  induction l with
  | nil => intro _ hq _; simp at hq
  | cons a tl ih =>
    intro himp hq hpe
    by_cases hqa : q a = true
    · rw [List.filter_cons_of_pos hqa] at hq
      obtain ⟨rfl, htl⟩ : a = e ∧ tl.filter q = [] := by
        constructor
        · exact (List.cons_eq_cons.mp hq).1
        · exact (List.cons_eq_cons.mp hq).2
      rw [List.filter_cons_of_pos hpe]
      have : tl.filter p = [] := by
        rw [List.filter_eq_nil_iff]
        intro x hx hp
        have hqx := himp x (List.mem_cons_of_mem _ hx) hp
        have : x ∈ tl.filter q := List.mem_filter.mpr ⟨hx, hqx⟩
        rw [htl] at this
        simp at this
      rw [this]
    · have hpa : ¬ p a = true := fun hp => hqa (himp a (List.mem_cons_self a tl) hp)
      rw [List.filter_cons_of_neg hqa] at hq
      rw [List.filter_cons_of_neg hpa]
      exact ih (fun x hx => himp x (List.mem_cons_of_mem _ hx)) hq hpe

lemma activeAt_imp_activeE {t : ℕ} {e : SchedEntry} (h : activeAt t e = true) :
    activeE e = true := by
  simp [activeAt, activeE] at *
  exact ⟨h.1.2, h.2⟩

lemma activeE_of_single {s : IdleTimerSys} {e : SchedEntry}
    (h : s.entries.filter activeE = [e]) : activeE e = true := by
  have : e ∈ s.entries.filter activeE := by rw [h]; simp
  exact (List.mem_filter.mp this).2

/-- A tick at a time when no stored deferral is due does nothing. -/
lemma tick_noop {s : IdleTimerSys} {t : ℕ}
    (h : s.entries.filter (activeAt t) = []) : tick t s = s := by
  unfold tick
  rw [h]
  have hmap : s.entries.map
      (fun e => if activeAt t e then { e with done := true } else e) = s.entries := by
    have := List.filter_eq_nil_iff.mp h
    calc s.entries.map (fun e => if activeAt t e then { e with done := true } else e)
        = s.entries.map id := by
          apply List.map_congr_left
          intro a ha
          simp only [id]
          rw [if_neg]
          intro hc
          exact this a ha hc
      _ = s.entries := List.map_id s.entries
  simp only [hmap, List.foldl_nil]

/-- A state with no live deferral is inert under the event loop. -/
lemma runTicks_inert {s : IdleTimerSys} (h : s.entries.filter activeE = []) :
    ∀ ticks, runTicks ticks s = s := by
  intro ticks
  induction ticks with
  | nil => rfl
  | cons t ts ih =>
    have hnil : s.entries.filter (activeAt t) = [] := by
      rw [List.filter_eq_nil_iff] at h ⊢
      intro a ha hc
      exact h a ha (activeAt_imp_activeE hc)
    show runTicks ts (tick t s) = s
    rw [tick_noop hnil]
    exact ih

/-- A tick at a time when the single live deferral is due fires it. -/
lemma tick_fire {s : IdleTimerSys} {e : SchedEntry} {t : ℕ}
    (h : s.entries.filter activeE = [e]) (hdue : e.due ≤ t) :
    tick t s =
      { s with
        entries := s.entries.map
          (fun x => if activeAt t x then { x with done := true } else x),
        idle := true, unsub := none, fired := s.fired ++ [t] } ∧
    (tick t s).entries.filter activeE = [] := by
  have hAt : activeAt t e = true := by
    have := activeE_of_single h
    simp [activeE] at this
    simp [activeAt, this, hdue]
  have hdueNow : s.entries.filter (activeAt t) = [e] :=
    filter_single _ _ _ _ (fun x _ hx => activeAt_imp_activeE hx) h hAt
  have hmapNil : (s.entries.map
      (fun x => if activeAt t x then { x with done := true } else x)).filter activeE
        = [] := by
    rw [List.filter_eq_nil_iff]
    intro a ha
    obtain ⟨y, hy, rfl⟩ := List.mem_map.mp ha
    by_cases hyAt : activeAt t y = true
    · rw [if_pos hyAt]
      simp [activeE]
    · rw [if_neg hyAt]
      intro hact
      have : y ∈ s.entries.filter activeE := List.mem_filter.mpr ⟨hy, hact⟩
      rw [h] at this
      simp at this
      subst this
      exact hyAt hAt
  constructor
  · unfold tick
    rw [hdueNow]
    rfl
  · unfold tick
    rw [hdueNow]
    simp only [List.foldl_cons, List.foldl_nil, timerFire]
    exact hmapNil

/-- Behaviour of the event loop on a state holding exactly one live
deferral: the idle callback runs exactly once, at the first tick at or
past the deferral's due time, and that run sets `idle` and drops the
handle; if no tick reaches the due time nothing happens at all. -/
lemma runTicks_single (e : SchedEntry) :
    ∀ (ticks : List ℕ) (s : IdleTimerSys), s.entries.filter activeE = [e] →
      ((ticks.find? (fun t => e.due ≤ t) = none → runTicks ticks s = s) ∧
       (∀ t, ticks.find? (fun u => e.due ≤ u) = some t →
          (runTicks ticks s).fired = s.fired ++ [t] ∧
          (runTicks ticks s).idle = true ∧ (runTicks ticks s).unsub = none)) := by
  intro ticks
  induction ticks with
  | nil =>
    intro s _
    refine ⟨fun _ => rfl, fun t ht => ?_⟩
    simp at ht
  | cons t ts ih =>
    intro s hs
    by_cases hdue : e.due ≤ t
    · have hfind : (t :: ts).find? (fun u => decide (e.due ≤ u)) = some t := by
        rw [List.find?_cons_of_pos]
        simpa using hdue
      obtain ⟨heq, hnil⟩ := tick_fire hs hdue
      have hrun : runTicks (t :: ts) s = tick t s := by
        show runTicks ts (tick t s) = tick t s
        exact runTicks_inert hnil ts
      constructor
      · intro hnone
        rw [hfind] at hnone
        exact absurd hnone (by simp)
      · intro t' ht'
        rw [hfind] at ht'
        obtain rfl : t = t' := by simpa using ht'
        rw [hrun, heq]
        simp
    · have hskip : (t :: ts).find? (fun u => decide (e.due ≤ u)) =
          ts.find? (fun u => decide (e.due ≤ u)) := by
        rw [List.find?_cons_of_neg]
        simpa using hdue
      have hnoopF : s.entries.filter (activeAt t) = [] := by
        rw [List.filter_eq_nil_iff]
        intro a ha hc
        have : a ∈ s.entries.filter activeE :=
          List.mem_filter.mpr ⟨ha, activeAt_imp_activeE hc⟩
        rw [hs] at this
        simp at this
        subst this
        simp [activeAt] at hc
        exact hdue hc.1.1
      have hstep : runTicks (t :: ts) s = runTicks ts s := by
        show runTicks ts (tick t s) = runTicks ts s
        rw [tick_noop hnoopF]
      obtain ⟨ihn, ihs⟩ := ih s hs
      constructor
      · intro hnone
        rw [hskip] at hnone
        rw [hstep]
        exact ihn hnone
      · intro t' ht'
        rw [hskip] at ht'
        rw [hstep]
        exact ihs t' ht'

lemma start_fresh_eq (τ t0 : ℕ) :
    timerStart t0 (freshTimer τ) =
      ⟨τ, some 0, false, [⟨0, t0 + τ, false, false⟩], 1, []⟩ := rfl

/-- Claim C8: from a fresh `IdleTimer`, after `start()` at time `t0`
with no further `awake()`/`clear()`, the idle callback fires exactly
once, at the first event-loop time that is at or past `t0 + timeout`
(and never if the loop never reaches that time); the firing sets
`idle` and clears the pending handle.  Calling `awake()` at time `t1`
before expiry instead makes the callback fire at the first time at or
past `t1 + timeout`. -/
theorem idleTimer_start_fires_once_and_awake_postpones (τ t0 t1 : ℕ)
    (ticks ticks1 ticks2 : List ℕ) (h1 : ∀ t ∈ ticks1, t < t0 + τ) :
    ((runTicks ticks (timerStart t0 (freshTimer τ))).fired
        = (ticks.find? (fun t => t0 + τ ≤ t)).toList) ∧
    (∀ t, ticks.find? (fun u => t0 + τ ≤ u) = some t →
        (runTicks ticks (timerStart t0 (freshTimer τ))).idle = true ∧
        (runTicks ticks (timerStart t0 (freshTimer τ))).unsub = none) ∧
    (runTicks ticks1 (timerStart t0 (freshTimer τ)) = timerStart t0 (freshTimer τ)) ∧
    ((runTicks ticks2
        (timerAwake t1 (runTicks ticks1 (timerStart t0 (freshTimer τ))))).fired
      = (ticks2.find? (fun t => t1 + τ ≤ t)).toList) := by
  have hs0 : (timerStart t0 (freshTimer τ)).entries.filter activeE
      = [⟨0, t0 + τ, false, false⟩] := rfl
  obtain ⟨hn, hsome⟩ := runTicks_single ⟨0, t0 + τ, false, false⟩ ticks
    (timerStart t0 (freshTimer τ)) hs0
  have hfired0 : (timerStart t0 (freshTimer τ)).fired = [] := rfl
  have hnone1 : ticks1.find? (fun u => decide (t0 + τ ≤ u)) = none := by
    rw [List.find?_eq_none]
    intro x hx
    simpa using Nat.not_le_of_lt (h1 x hx)
  obtain ⟨hn1, _⟩ := runTicks_single ⟨0, t0 + τ, false, false⟩ ticks1
    (timerStart t0 (freshTimer τ)) hs0
  have hrun1 : runTicks ticks1 (timerStart t0 (freshTimer τ))
      = timerStart t0 (freshTimer τ) := hn1 hnone1
  refine ⟨?_, ?_, hrun1, ?_⟩
  · cases hf : ticks.find? (fun t => decide (t0 + τ ≤ t)) with
    | none => rw [hn hf, hfired0]; rfl
    | some t =>
      obtain ⟨hfd, _, _⟩ := hsome t hf
      rw [hfd, hfired0]
      rfl
  · intro t ht
    obtain ⟨_, hi, hu⟩ := hsome t ht
    exact ⟨hi, hu⟩
  · rw [hrun1]
    have hsA : (timerAwake t1 (timerStart t0 (freshTimer τ))).entries.filter activeE
        = [⟨1, t1 + τ, false, false⟩] := rfl
    obtain ⟨hn2, hsome2⟩ := runTicks_single ⟨1, t1 + τ, false, false⟩ ticks2
      (timerAwake t1 (timerStart t0 (freshTimer τ))) hsA
    have hfiredA : (timerAwake t1 (timerStart t0 (freshTimer τ))).fired = [] := rfl
    cases hf : ticks2.find? (fun t => decide (t1 + τ ≤ t)) with
    | none => rw [hn2 hf, hfiredA]; rfl
    | some t =>
      obtain ⟨hfd, _, _⟩ := hsome2 t hf
      rw [hfd, hfiredA]
      rfl

/-- Witness for claim C8 at `timeout = 5`, `start` at time 0, ticks at
3, 7 and 9 (fires at 7), with the `awake` run awakened at time 2 after
an idle tick at 1, then ticks at 4 and 8 (fires at 8). -/
theorem idleTimer_start_fires_once_witness :
    (∀ t ∈ [1], t < 0 + 5) ∧
    (((runTicks [3, 7, 9] (timerStart 0 (freshTimer 5))).fired
        = (([3, 7, 9].find? (fun t => 0 + 5 ≤ t)).toList)) ∧
    (∀ t, [3, 7, 9].find? (fun u => 0 + 5 ≤ u) = some t →
        (runTicks [3, 7, 9] (timerStart 0 (freshTimer 5))).idle = true ∧
        (runTicks [3, 7, 9] (timerStart 0 (freshTimer 5))).unsub = none) ∧
    (runTicks [1] (timerStart 0 (freshTimer 5)) = timerStart 0 (freshTimer 5)) ∧
    ((runTicks [4, 8]
        (timerAwake 2 (runTicks [1] (timerStart 0 (freshTimer 5))))).fired
      = (([4, 8].find? (fun t => 2 + 5 ≤ t)).toList))) :=
  ⟨by decide,
    idleTimer_start_fires_once_and_awake_postpones 5 0 2 [3, 7, 9] [1] [4, 8] (by decide)⟩

/-- Claim C10: `IdleTimer.clear` cancels the pending deferral but
leaves `_unsub` set, so a subsequent `start()` sees `_unsub is not
None`, arms nothing, and the idle callback can never fire. -/
theorem idleTimer_clear_then_start_never_fires (τ t0 t1 : ℕ) (ticks : List ℕ) :
    (timerClear (timerStart t0 (freshTimer τ))).unsub = some 0 ∧
    (timerStart t1 (timerClear (timerStart t0 (freshTimer τ)))).entries
        = [⟨0, t0 + τ, true, false⟩] ∧
    (timerStart t1 (timerClear (timerStart t0 (freshTimer τ)))).nextId = 1 ∧
    (runTicks ticks (timerStart t1 (timerClear (timerStart t0 (freshTimer τ))))).fired
        = [] := by
  refine ⟨rfl, rfl, rfl, ?_⟩
  have hinert : (timerStart t1 (timerClear (timerStart t0
      (freshTimer τ)))).entries.filter activeE = [] := rfl
  rw [runTicks_inert hinert ticks]
  rfl

end IdleTimerSys

/-! ### StreamOutput history bound (claim C7) -/

namespace StreamOutput

lemma dequeAppend_some (n : ℕ) (l : List Segment) (x : Segment) :
    dequeAppend (some n) l x = (l ++ [x]).drop (l.length + 1 - n) := by
  simp [dequeAppend]

/-- Re-truncating an already truncated history before appending gives
the same result as truncating once at the end. -/
lemma drop_lastN_append (n : ℕ) (a b : List Segment) :
    ((a.drop (a.length - n)) ++ b).drop
        ((a.drop (a.length - n)).length + b.length - n)
      = (a ++ b).drop (a.length + b.length - n) := by
  rw [List.drop_append_eq_append_drop, List.drop_append_eq_append_drop,
    List.drop_drop, List.length_drop]
  congr 1
  · congr 1
    omega
  · congr 1
    omega

/-- Folding bounded appends over a history of length at most `n` keeps
exactly the last `n` elements of the concatenation. -/
lemma foldl_dequeAppend (n : ℕ) :
    ∀ (xs init : List Segment), init.length ≤ n →
      xs.foldl (dequeAppend (some n)) init
        = (init ++ xs).drop (init.length + xs.length - n) := by
  intro xs
  induction xs with
  | nil =>
    intro init h
    simp [Nat.sub_eq_zero_of_le h]
  | cons x xs ih =>
    intro init h
    have hstep : dequeAppend (some n) init x
        = (init ++ [x]).drop ((init ++ [x]).length - n) := by
      rw [dequeAppend_some]
      congr 1
      simp
    have hlen : (dequeAppend (some n) init x).length ≤ n := by
      rw [hstep, List.length_drop]
      omega
    calc (x :: xs).foldl (dequeAppend (some n)) init
        = xs.foldl (dequeAppend (some n)) (dequeAppend (some n) init x) := rfl
      _ = ((dequeAppend (some n) init x) ++ xs).drop
            ((dequeAppend (some n) init x).length + xs.length - n) := ih _ hlen
      _ = ((init ++ [x]) ++ xs).drop ((init ++ [x]).length + xs.length - n) := by
            rw [hstep]
            exact drop_lastN_append n (init ++ [x]) xs
      _ = (init ++ x :: xs).drop (init.length + (x :: xs).length - n) := by
            have harith : (init ++ [x]).length + xs.length - n
                = init.length + (x :: xs).length - n := by
              simp only [List.length_append, List.length_cons, List.length_nil]
              omega
            rw [harith, List.append_assoc]
            rfl

lemma async_put_segments (now : ℕ) (o : StreamOutput) (x : Segment) :
    (async_put now o x).1.segments = dequeAppend o.maxlen o.segments x := rfl

lemma async_put_maxlen (now : ℕ) (o : StreamOutput) (x : Segment) :
    (async_put now o x).1.maxlen = o.maxlen := rfl

/-- The history after a sequence of `_async_put` calls, as a fold of
bounded deque appends. -/
lemma runPuts_segments :
    ∀ (puts : List (ℕ × Segment)) (o : StreamOutput),
      (puts.foldl (fun o c => (async_put c.1 o c.2).1) o).segments
          = (puts.map Prod.snd).foldl (dequeAppend o.maxlen) o.segments ∧
      (puts.foldl (fun o c => (async_put c.1 o c.2).1) o).maxlen = o.maxlen := by
  intro puts
  induction puts with
  | nil => intro o; exact ⟨rfl, rfl⟩
  | cons c cs ih =>
    intro o
    obtain ⟨h1, h2⟩ := ih (async_put c.1 o c.2).1
    refine ⟨?_, ?_⟩
    · calc ((c :: cs).foldl (fun o c => (async_put c.1 o c.2).1) o).segments
          = (cs.foldl (fun o c => (async_put c.1 o c.2).1) (async_put c.1 o c.2).1).segments
            := rfl
        _ = (cs.map Prod.snd).foldl (dequeAppend (async_put c.1 o c.2).1.maxlen)
              (async_put c.1 o c.2).1.segments := h1
        _ = ((c :: cs).map Prod.snd).foldl (dequeAppend o.maxlen) o.segments := by
              rw [async_put_maxlen, async_put_segments]
              rfl
    · calc ((c :: cs).foldl (fun o c => (async_put c.1 o c.2).1) o).maxlen
          = (cs.foldl (fun o c => (async_put c.1 o c.2).1) (async_put c.1 o c.2).1).maxlen
            := rfl
        _ = o.maxlen := by rw [h2, async_put_maxlen]

/-- Claim C7: for a `StreamOutput` built with `deque_maxlen = n`, after
any sequence of `_async_put` calls (each at an arbitrary event-loop
time) `get_segments()` holds exactly the most recently put `n` (or
fewer) segments in publication order — the oldest is evicted on each
put beyond capacity — so its length never exceeds `n`, and the
configured bound is unchanged.  Every intermediate history is the
instance of this statement at the corresponding prefix of `puts`. -/
theorem streamOutput_history_bounded (n : ℕ) (timer0 : IdleTimerSys)
    (puts : List (ℕ × Segment)) :
    (puts.foldl (fun o c => (async_put c.1 o c.2).1)
        (mkStreamOutput timer0 (some n))).get_segments
      = (puts.map Prod.snd).drop (puts.length - n) ∧
    (puts.foldl (fun o c => (async_put c.1 o c.2).1)
        (mkStreamOutput timer0 (some n))).get_segments.length ≤ n ∧
    (puts.foldl (fun o c => (async_put c.1 o c.2).1)
        (mkStreamOutput timer0 (some n))).maxlen = some n := by
  obtain ⟨h1, h2⟩ := runPuts_segments puts (mkStreamOutput timer0 (some n))
  have hseg : (puts.foldl (fun o c => (async_put c.1 o c.2).1)
      (mkStreamOutput timer0 (some n))).get_segments
        = (puts.map Prod.snd).drop (puts.length - n) := by
    rw [get_segments, h1]
    show (puts.map Prod.snd).foldl (dequeAppend (some n)) [] = _
    rw [foldl_dequeAppend n (puts.map Prod.snd) [] (by simp)]
    simp
  refine ⟨hseg, ?_, h2⟩
  rw [hseg, List.length_drop]
  simp
  omega

end StreamOutput

/-! ### Claims C9 and C3: cleanup semantics, push-at-construction -/

namespace StreamOutput

lemma hasActivePending_timerClear (T : IdleTimerSys) :
    IdleTimerSys.hasActivePending (IdleTimerSys.timerClear T) = false := by
  unfold IdleTimerSys.timerClear
  cases hu : T.unsub with
  | none => simp [IdleTimerSys.hasActivePending, hu]
  | some i =>
    simp only [IdleTimerSys.hasActivePending, hu]
    rw [List.any_eq_false]
    intro e he
    obtain ⟨y, _, rfl⟩ := List.mem_map.mp he
    by_cases hy : y.id = i
    · simp [hy, IdleTimerSys.activeE]
    · simp [hy]

/-- Claim C9 (amended): `cleanup()` wakes exactly the waiters suspended
in `recv()` (those on `_event`); waiters suspended in `part_recv()` are
not signalled and stay suspended; the idle timer's pending deferral is
cancelled; and the history is reset to empty while the configured
capacity is preserved. -/
theorem cleanup_wakes_recv_waiters_only (o : StreamOutput) :
    (cleanup o).2 = o.event.waiters ∧
    (cleanup o).1.part_event = o.part_event ∧
    (cleanup o).1.get_segments = [] ∧
    (cleanup o).1.maxlen = o.maxlen ∧
    (cleanup o).1.idle_timer = IdleTimerSys.timerClear o.idle_timer ∧
    IdleTimerSys.hasActivePending (cleanup o).1.idle_timer = false := by
  refine ⟨rfl, rfl, rfl, rfl, rfl, ?_⟩
  show IdleTimerSys.hasActivePending (IdleTimerSys.timerClear o.idle_timer) = false
  exact hasActivePending_timerClear o.idle_timer

/-- A concrete output with one consumer suspended in `recv()` (token 3)
and one suspended in `part_recv()` (token 7). -/
def cxWaitersOut : StreamOutput :=
  partRecvWait (recvWait (mkStreamOutput (IdleTimerSys.freshTimer 10) (some 2)) 3) 7

/-- Claim C9 counterexample: on `cxWaitersOut`, `cleanup()` wakes only
the `recv()` waiter (token 3); the `part_recv()` waiter (token 7) is
not woken and is still suspended on `_part_event`, refuting "cleanup()
wakes all waiters currently suspended in recv() and part_recv()". -/
theorem cleanup_leaves_part_recv_waiter_suspended :
    (cleanup cxWaitersOut).2 = [3] ∧
    ((cleanup cxWaitersOut).2.contains 7 = false) ∧
    (cleanup cxWaitersOut).1.part_event.waiters = [7] := by
  decide

end StreamOutput

namespace Segment

/-- Claim C3 (amended): a `Segment` is pushed into each registered
`StreamOutput`'s history at construction time (`__attrs_post_init__`),
with whatever duration the constructor received — so a segment created
with `duration = 0`, as the producer does, is incomplete when it is
appended; finalization (`async_add_part` setting a non-zero duration)
only raises the part event and appends nothing to any history. -/
theorem segment_pushed_at_construction (sequence : ℕ) (init : Bytes) (duration : ℚ)
    (stream_id : ℕ) (t : DateTime) (outs : List StreamOutput) (now : ℕ)
    (s : Segment) (p : Part) (d : ℚ) :
    ((mkSegment sequence init duration stream_id t outs now).2).map
        (fun o => o.segments)
      = outs.map (fun o => StreamOutput.dequeAppend o.maxlen o.segments
          (newSegment sequence init duration stream_id t)) ∧
    (mkSegment sequence init duration stream_id t outs now).1.complete
        = decide (0 < duration) ∧
    ((async_add_part s p d outs).2).map (fun o => o.segments)
      = outs.map (fun o => o.segments) := by
  refine ⟨?_, rfl, ?_⟩
  · simp only [mkSegment, List.map_map]
    rfl
  · simp only [async_add_part, List.map_map]
    rfl

/-- A concrete fresh output with no history and no bound. -/
def cxEmptyOut : StreamOutput :=
  StreamOutput.mkStreamOutput (IdleTimerSys.freshTimer 10) none

/-- Claim C3 counterexample: constructing a `Segment` with duration 0
(the producer's normal flow) and one registered output immediately
appends the segment to that output's history, where it sits incomplete
— refuting "every Segment retained in a StreamOutput's history is
complete (duration > 0) at the time it is appended" and "pushed ...
exactly when it is finalized". -/
theorem incomplete_segment_in_history_at_construction :
    ((mkSegment 0 [] 0 7 ⟨2021, 1, 1, 0, 0, 0, 0⟩ [cxEmptyOut] 5).2).map
        (fun o => o.segments.map complete) = [[false]] := by
  decide

end Segment

/-! ### Claim C4: `async_add_part` bookkeeping -/

namespace Segment

/-- List-level reading of `Segment.data_size`. -/
def dsizeL (l : List (ℕ × Part)) : ℕ :=
  match l.getLast? with
  | none => 0
  | some e => e.1 + e.2.data.length

lemma data_size_eq (s : Segment) : s.data_size = dsizeL s.parts_by_byterange := rfl

lemma eq_nil_or_append_single {α} (l : List α) : l = [] ∨ ∃ (L : List α) (b : α), l = L ++ [b] := by
  rcases List.eq_nil_or_concat l with h | ⟨L, b, h⟩
  · exact Or.inl h
  · exact Or.inr ⟨L, b, by simpa [List.concat_eq_append] using h⟩

lemma keys_le_dsizeL {l : List (ℕ × Part)}
    (h : List.Pairwise (fun a b : ℕ × Part => a.1 < b.1) l) :
    ∀ e ∈ l, e.1 ≤ dsizeL l := by
  rcases eq_nil_or_append_single l with rfl | ⟨L, b, rfl⟩
  · intro e he
    simp at he
  · have hd : dsizeL (L ++ [b]) = b.1 + b.2.data.length := by
      simp [dsizeL, List.getLast?_concat]
    obtain ⟨-, -, hrel⟩ := List.pairwise_append.mp h
    intro e he
    rcases List.mem_append.mp he with heL | heb
    · have : e.1 < b.1 := hrel e heL b (by simp)
      omega
    · have : e = b := by simpa using heb
      subst this
      omega

lemma dsizeL_insert (l : List (ℕ × Part)) (p : Part)
    (hinv : List.Pairwise (fun a b : ℕ × Part => a.1 < b.1) l) :
    dsizeL (dictInsert l (dsizeL l) p) = dsizeL l + p.data.length ∧
    List.Pairwise (fun a b : ℕ × Part => a.1 < b.1) (dictInsert l (dsizeL l) p) := by
  unfold dictInsert
  by_cases hany : l.any (fun e => e.1 = dsizeL l)
  · rw [if_pos hany]
    obtain ⟨e, heMem, heKey⟩ := List.any_eq_true.mp hany
    rcases eq_nil_or_append_single l with rfl | ⟨L, b, rfl⟩
    · simp at heMem
    · have hd : dsizeL (L ++ [b]) = b.1 + b.2.data.length := by
        simp [dsizeL, List.getLast?_concat]
      obtain ⟨hL, -, hrel⟩ := List.pairwise_append.mp hinv
      have heKey' : e.1 = dsizeL (L ++ [b]) := by simpa using heKey
      have hbKey : b.1 = dsizeL (L ++ [b]) ∧ b.2.data.length = 0 := by
        rcases List.mem_append.mp heMem with heL | heb
        · exfalso
          have h1 : e.1 < b.1 := hrel e heL b (by simp)
          omega
        · have : e = b := by simpa using heb
          subst this
          omega
      have hmap : (L ++ [b]).map
          (fun e => if e.1 = dsizeL (L ++ [b]) then (dsizeL (L ++ [b]), p) else e)
            = L ++ [(dsizeL (L ++ [b]), p)] := by
        rw [List.map_append]
        congr 1
        · calc L.map (fun e => if e.1 = dsizeL (L ++ [b])
                then (dsizeL (L ++ [b]), p) else e)
              = L.map id := by
                apply List.map_congr_left
                intro a haL
                have h1 : a.1 < b.1 := hrel a haL b (by simp)
                have : ¬ a.1 = dsizeL (L ++ [b]) := by omega
                simp [this]
            _ = L := List.map_id L
        · have : b.1 = dsizeL (L ++ [b]) := hbKey.1
          simp [this]
      rw [hmap]
      constructor
      · simp [dsizeL, List.getLast?_concat]
      · rw [List.pairwise_append]
        refine ⟨hL, by simp, ?_⟩
        intro a haL a' ha'
        have ha' : a' = (dsizeL (L ++ [b]), p) := by simpa using ha'
        subst ha'
        have h1 : a.1 < b.1 := hrel a haL b (by simp)
        have h2 : b.1 = dsizeL (L ++ [b]) := hbKey.1
        simpa [← h2] using h1
  · rw [if_neg hany]
    have hne : ∀ e ∈ l, ¬ e.1 = dsizeL l := by
      intro e he
      have := List.any_eq_false.mp (Bool.of_not_eq_true hany) e he
      simpa using this
    constructor
    · simp [dsizeL, List.getLast?_concat]
    · rw [List.pairwise_append]
      refine ⟨hinv, by simp, ?_⟩
      intro a haL a' ha'
      have ha' : a' = (dsizeL l, p) := by simpa using ha'
      subst ha'
      have h1 := keys_le_dsizeL hinv a haL
      have h2 := hne a haL
      simp only []
      omega

lemma async_add_part_fields (s : Segment) (p : Part) (d : ℚ) :
    (async_add_part s p d []).1.parts_by_byterange
        = dictInsert s.parts_by_byterange s.data_size p ∧
    (async_add_part s p d []).1.duration = d := ⟨rfl, rfl⟩

/-- Size and key-order invariant through a sequence of part appends. -/
lemma runAdds_size :
    ∀ (calls : List (Part × ℚ)) (s : Segment),
      List.Pairwise (fun a b : ℕ × Part => a.1 < b.1) s.parts_by_byterange →
      (runAdds s calls).data_size
          = s.data_size + (calls.map (fun c => c.1.data.length)).sum ∧
      List.Pairwise (fun a b : ℕ × Part => a.1 < b.1)
        (runAdds s calls).parts_by_byterange := by
  intro calls
  induction calls with
  | nil => intro s h; exact ⟨by simp [runAdds], h⟩
  | cons c cs ih =>
    intro s h
    have hstep := dsizeL_insert s.parts_by_byterange c.1 h
    have h1 : (async_add_part s c.1 c.2 []).1.data_size
        = s.data_size + c.1.data.length := by
      rw [data_size_eq, data_size_eq]
      exact hstep.1
    have h2 : List.Pairwise (fun a b : ℕ × Part => a.1 < b.1)
        (async_add_part s c.1 c.2 []).1.parts_by_byterange := hstep.2
    obtain ⟨ih1, ih2⟩ := ih (async_add_part s c.1 c.2 []).1 h2
    constructor
    · show (runAdds (async_add_part s c.1 c.2 []).1 cs).data_size = _
      rw [ih1, h1]
      simp [Nat.add_assoc]
    · exact ih2

lemma runAdds_duration :
    ∀ (calls : List (Part × ℚ)) (s : Segment),
      (runAdds s calls).duration = (calls.map Prod.snd).getLastD s.duration := by
  intro calls
  induction calls with
  | nil => intro s; rfl
  | cons c cs ih =>
    intro s
    show (runAdds (async_add_part s c.1 c.2 []).1 cs).duration = _
    rw [ih]
    have hd : (async_add_part s c.1 c.2 []).1.duration = c.2 := rfl
    rw [hd, List.map_cons, List.getLastD_cons]

lemma take_getLastD {α} (l : List α) (k : ℕ) (h : k < l.length) (d : α) :
    (l.take (k + 1)).getLastD d = l.get ⟨k, h⟩ := by
  rw [List.take_succ, List.getElem?_eq_getElem h]
  show (List.take k l ++ [l[k]]).getLastD d = l.get ⟨k, h⟩
  rw [List.getLastD_eq_getLast?, List.getLast?_concat]
  rfl

/-- Claim C4: starting from a fresh segment, a sequence of
`async_add_part(part, duration)` calls with duration `0` on every call
but the last and a positive duration on the last yields: after every
prefix, `data_size` equals the sum of the byte lengths of the parts
added so far (so the key used by the next call is the cumulative size
of the parts before it, stated by the last conjunct); `complete` is
false after every call except the last and true after the last. -/
theorem addPart_sizes_and_completion (sequence : ℕ) (init : Bytes) (stream_id : ℕ)
    (t : DateTime) (calls : List (Part × ℚ))
    (hne : calls ≠ [])
    (hlast : 0 < (calls.map Prod.snd).getLastD 0)
    (hinit : ∀ c ∈ calls.dropLast, c.2 = 0) :
    (∀ k, k ≤ calls.length →
      (runAdds (newSegment sequence init 0 stream_id t) (calls.take k)).data_size
        = ((calls.take k).map (fun c => c.1.data.length)).sum) ∧
    (∀ k, k + 1 < calls.length →
      (runAdds (newSegment sequence init 0 stream_id t)
          (calls.take (k + 1))).complete = false) ∧
    (runAdds (newSegment sequence init 0 stream_id t) calls).complete = true ∧
    (∀ k (h : k < calls.length),
      (runAdds (newSegment sequence init 0 stream_id t)
          (calls.take (k + 1))).parts_by_byterange
        = dictInsert
            ((runAdds (newSegment sequence init 0 stream_id t)
                (calls.take k)).parts_by_byterange)
            (((calls.take k).map (fun c => c.1.data.length)).sum)
            (calls.get ⟨k, h⟩).1) := by
  have hfreshInv : List.Pairwise (fun a b : ℕ × Part => a.1 < b.1)
      (newSegment sequence init 0 stream_id t).parts_by_byterange := by
    simp [newSegment]
  have hsize : ∀ k, k ≤ calls.length →
      (runAdds (newSegment sequence init 0 stream_id t) (calls.take k)).data_size
        = ((calls.take k).map (fun c => c.1.data.length)).sum := by
    intro k _
    obtain ⟨h1, -⟩ := runAdds_size (calls.take k) _ hfreshInv
    rw [h1]
    have h0 : (newSegment sequence init 0 stream_id t).data_size = 0 := rfl
    omega
  refine ⟨hsize, ?_, ?_, ?_⟩
  · intro k hk
    have hd : (runAdds (newSegment sequence init 0 stream_id t)
        (calls.take (k + 1))).duration = (calls.get ⟨k, Nat.lt_of_succ_lt hk⟩).2 := by
      rw [runAdds_duration, List.map_take]
      rw [take_getLastD (calls.map Prod.snd) k (by simpa using Nat.lt_of_succ_lt hk)]
      simp
    have hmem : calls.get ⟨k, Nat.lt_of_succ_lt hk⟩ ∈ calls.dropLast := by
      have hk' : k < calls.dropLast.length := by
        rw [List.length_dropLast]
        omega
      have hdl : calls.dropLast.get ⟨k, hk'⟩ = calls.get ⟨k, Nat.lt_of_succ_lt hk⟩ :=
        List.getElem_dropLast calls k hk'
      rw [← hdl]
      exact List.get_mem _ _ hk'
    have hzero : calls[k].2 = 0 := hinit _ hmem
    simp [complete, hd]
    exact le_of_eq hzero
  · have hd : (runAdds (newSegment sequence init 0 stream_id t) calls).duration
        = (calls.map Prod.snd).getLastD 0 := by
      rw [runAdds_duration]
      rfl
    simp [complete, hd]
    simpa using hlast
  · intro k h
    have htake : calls.take (k + 1) = calls.take k ++ [calls.get ⟨k, h⟩] := by
      rw [List.take_succ, List.getElem?_eq_getElem h]
      rfl
    rw [htake]
    have hfold : runAdds (newSegment sequence init 0 stream_id t)
        (calls.take k ++ [calls.get ⟨k, h⟩])
          = runAdds (runAdds (newSegment sequence init 0 stream_id t)
              (calls.take k)) [calls.get ⟨k, h⟩] := by
      unfold runAdds
      rw [List.foldl_append]
    rw [hfold]
    rw [show ∀ (s : Segment) (c : Part × ℚ), (runAdds s [c]).parts_by_byterange
          = dictInsert s.parts_by_byterange s.data_size c.1 from fun _ _ => rfl]
    rw [hsize k (le_of_lt h)]

/-- Witness for claim C4 on two parts of 2 and 1 bytes with durations
0 then 2. -/
theorem addPart_sizes_witness :
    (([(⟨0, true, [1, 2]⟩, 0), (⟨2, false, [3]⟩, 2)] : List (Part × ℚ)) ≠ [] ∧
      0 < (([(⟨0, true, [1, 2]⟩, 0), (⟨2, false, [3]⟩, 2)] : List (Part × ℚ)).map
        Prod.snd).getLastD 0 ∧
      ∀ c ∈ ([(⟨0, true, [1, 2]⟩, 0), (⟨2, false, [3]⟩, 2)] :
        List (Part × ℚ)).dropLast, c.2 = 0) ∧
    ((∀ k, k ≤ ([(⟨0, true, [1, 2]⟩, 0), (⟨2, false, [3]⟩, 2)] :
        List (Part × ℚ)).length →
      (runAdds (newSegment 4 [9] 0 6 ⟨2021, 1, 1, 0, 0, 0, 0⟩)
          (([(⟨0, true, [1, 2]⟩, 0), (⟨2, false, [3]⟩, 2)] :
            List (Part × ℚ)).take k)).data_size
        = ((([(⟨0, true, [1, 2]⟩, 0), (⟨2, false, [3]⟩, 2)] :
            List (Part × ℚ)).take k).map (fun c => c.1.data.length)).sum) ∧
    (∀ k, k + 1 < ([(⟨0, true, [1, 2]⟩, 0), (⟨2, false, [3]⟩, 2)] :
        List (Part × ℚ)).length →
      (runAdds (newSegment 4 [9] 0 6 ⟨2021, 1, 1, 0, 0, 0, 0⟩)
          (([(⟨0, true, [1, 2]⟩, 0), (⟨2, false, [3]⟩, 2)] :
            List (Part × ℚ)).take (k + 1))).complete = false) ∧
    (runAdds (newSegment 4 [9] 0 6 ⟨2021, 1, 1, 0, 0, 0, 0⟩)
        ([(⟨0, true, [1, 2]⟩, 0), (⟨2, false, [3]⟩, 2)] :
          List (Part × ℚ))).complete = true ∧
    (∀ k (h : k < ([(⟨0, true, [1, 2]⟩, 0), (⟨2, false, [3]⟩, 2)] :
        List (Part × ℚ)).length),
      (runAdds (newSegment 4 [9] 0 6 ⟨2021, 1, 1, 0, 0, 0, 0⟩)
          (([(⟨0, true, [1, 2]⟩, 0), (⟨2, false, [3]⟩, 2)] :
            List (Part × ℚ)).take (k + 1))).parts_by_byterange
        = dictInsert
            ((runAdds (newSegment 4 [9] 0 6 ⟨2021, 1, 1, 0, 0, 0, 0⟩)
                (([(⟨0, true, [1, 2]⟩, 0), (⟨2, false, [3]⟩, 2)] :
                  List (Part × ℚ)).take k)).parts_by_byterange)
            (((([(⟨0, true, [1, 2]⟩, 0), (⟨2, false, [3]⟩, 2)] :
                List (Part × ℚ)).take k).map (fun c => c.1.data.length)).sum)
            (([(⟨0, true, [1, 2]⟩, 0), (⟨2, false, [3]⟩, 2)] :
              List (Part × ℚ)).get ⟨k, h⟩).1)) :=
  ⟨⟨by decide, by decide, by decide⟩,
    addPart_sizes_and_completion 4 [9] 6 ⟨2021, 1, 1, 0, 0, 0, 0⟩
      [(⟨0, true, [1, 2]⟩, 0), (⟨2, false, [3]⟩, 2)]
      (by decide) (by decide) (by decide)⟩

end Segment

/-! ### Claims C5 and C6: render_hls caching and the preload hint -/

namespace Segment

lemma intercalate_promote (x : String) : String.intercalate "\n" (promote x) = x := by
  by_cases h : x = ""
  · subst h; rfl
  · unfold promote
    rw [if_neg h]
    rfl

lemma render_hls_template_of_flag (s : Segment) (last : ℕ) (rp : Bool)
    (h : s.hls_playlist_complete = true) :
    render_hls_template s last rp = (s.hls_playlist_template, s) := by
  simp [render_hls_template, h]

/-- Explicit form of `_render_hls_template` on a segment that is not
complete and whose cache is not marked complete. -/
lemma render_hls_template_build (s : Segment) (last : ℕ) (rp : Bool)
    (hc : s.hls_playlist_complete = false) (hs : s.complete = false) :
    render_hls_template s last rp =
      (String.intercalate "\n"
          (if (promote s.hls_playlist_template).isEmpty then
            (if last ≠ s.stream_id then ["#EXT-X-DISCONTINUITY"] else []) ++ ["\x7b\x7d"]
          else promote s.hls_playlist_template),
        { s with
          hls_playlist_template := String.intercalate "\n"
            (if (promote s.hls_playlist_template).isEmpty then
              (if last ≠ s.stream_id then ["#EXT-X-DISCONTINUITY"] else []) ++ ["\x7b\x7d"]
            else promote s.hls_playlist_template)
          hls_playlist_parts := String.intercalate "\n"
            (if rp then promote s.hls_playlist_parts ++
              ((s.parts_by_byterange.drop s.hls_num_parts_rendered).map
                (fun e => partLine s.sequence e.1 e.2))
            else promote s.hls_playlist_parts)
          hls_num_parts_rendered := s.parts_by_byterange.length
          hls_playlist_complete := false }) := by
  simp [render_hls_template, hc, hs]

lemma render_hls_template_fst_ne (s : Segment) (last : ℕ) (rp : Bool)
    (hc : s.hls_playlist_complete = false) (hs : s.complete = false) :
    (render_hls_template s last rp).1 ≠ "" := by
  rw [render_hls_template_build s last rp hc hs]
  by_cases ht : s.hls_playlist_template = ""
  · have hp : promote s.hls_playlist_template = [] := by
      unfold promote
      rw [if_pos ht]
    rw [hp]
    simp only [List.isEmpty_nil, if_true]
    by_cases hl : last ≠ s.stream_id
    · rw [if_pos hl]
      decide
    · rw [if_neg hl]
      decide
  · have hp : promote s.hls_playlist_template = [s.hls_playlist_template] := by
      unfold promote
      rw [if_neg ht]
    rw [hp]
    simpa using ht

/-- A second template rendering from a cache state of the shape the
first (incomplete) rendering produces reproduces it verbatim. -/
lemma render_hls_template_stable_aux (S : Segment) (T : String) (last : ℕ) (rp : Bool)
    (hflag : S.hls_playlist_complete = false)
    (hcomp : S.complete = false)
    (htmpl : S.hls_playlist_template = T)
    (hTne : T ≠ "")
    (hnum : S.hls_num_parts_rendered = S.parts_by_byterange.length) :
    render_hls_template S last rp = (T, S) := by
  rw [render_hls_template_build S last rp hflag hcomp]
  have hpT : promote S.hls_playlist_template = [S.hls_playlist_template] := by
    unfold promote
    rw [if_neg (by rw [htmpl]; exact hTne)]
  rw [hpT, hnum]
  simp only [List.isEmpty_cons, Bool.false_eq_true, if_false, List.drop_length,
    List.map_nil, List.append_nil, ite_self, intercalate_promote]
  rw [show String.intercalate "\n" [S.hls_playlist_template] = S.hls_playlist_template
      from rfl,
    ← hnum, ← hflag, ← htmpl]

/-- Rendering the template a second time with no intervening part or
completion change reproduces the cached result and leaves the cache
fields untouched. -/
lemma render_hls_template_stable (s : Segment) (last : ℕ) (rp : Bool) :
    render_hls_template (render_hls_template s last rp).2 last rp
      = render_hls_template s last rp := by
  by_cases hc : s.hls_playlist_complete
  · rw [render_hls_template_of_flag s last rp hc]
    exact render_hls_template_of_flag s last rp hc
  · have hc' : s.hls_playlist_complete = false := by simpa using hc
    by_cases hs : s.complete
    · -- the first call stores the finished template; the second hits the cache
      have h2 : (render_hls_template s last rp).2.hls_playlist_complete = true := by
        simp [render_hls_template, hc', hs]
      have h1 : (render_hls_template s last rp).2.hls_playlist_template
          = (render_hls_template s last rp).1 := by
        simp [render_hls_template, hc']
      rw [render_hls_template_of_flag _ last rp h2, h1]
    · have hs' : s.complete = false := by simpa using hs
      have hb := render_hls_template_build s last rp hc' hs'
      have hflag : (render_hls_template s last rp).2.hls_playlist_complete = false := by
        rw [hb]
      have hcomp : (render_hls_template s last rp).2.complete = false := by
        rw [hb]
        exact hs'
      have htmpl : (render_hls_template s last rp).2.hls_playlist_template
          = (render_hls_template s last rp).1 := by
        rw [hb]
      have hnum : (render_hls_template s last rp).2.hls_num_parts_rendered
          = (render_hls_template s last rp).2.parts_by_byterange.length := by
        rw [hb]
      have hTne : (render_hls_template s last rp).1 ≠ "" :=
        render_hls_template_fst_ne s last rp hc' hs'
      exact (render_hls_template_stable_aux (render_hls_template s last rp).2
        (render_hls_template s last rp).1 last rp hflag hcomp htmpl hTne hnum).trans
        rfl

lemma render_hls_snd (s : Segment) (last : ℕ) (rp ah : Bool) :
    (render_hls s last rp ah).2 = (render_hls_template s last rp).2 := by
  unfold render_hls
  cases ah <;> rfl

lemma fmtAux_no_lbrace (a : List Char) :
    ∀ l : List Char, (∀ c ∈ l, c ≠ '\x7b') → fmtAux a l = l := by
  intro l
  induction l with
  | nil => intro _; rfl
  | cons c tl ih =>
    intro h
    cases tl with
    | nil => rfl
    | cons d rest =>
      have hc : ¬(c = '\x7b' ∧ d = '\x7d') := by
        intro hcd
        exact h c (by simp) hcd.1
      show (if c = '\x7b' ∧ d = '\x7d' then a ++ rest else c :: fmtAux a (d :: rest))
          = c :: d :: rest
      rw [if_neg hc, ih (fun x hx => h x (List.mem_cons_of_mem _ hx))]

lemma fmtAux_append_newline (a h : List Char) (hh : ∀ c ∈ h, c ≠ '\x7b') :
    ∀ t : List Char, fmtAux a (t ++ '\n' :: h) = fmtAux a t ++ '\n' :: h := by
  intro t
  induction t with
  | nil =>
    show fmtAux a ('\n' :: h) = '\n' :: h
    exact fmtAux_no_lbrace a ('\n' :: h) (by
      intro c hc
      rcases List.mem_cons.mp hc with rfl | hc'
      · decide
      · exact hh c hc')
  | cons c tl ih =>
    cases tl with
    | nil =>
      show fmtAux a (c :: '\n' :: h) = [c] ++ '\n' :: h
      have hc : ¬(c = '\x7b' ∧ '\n' = '\x7d') := by
        intro hcd
        exact absurd hcd.2 (by decide)
      show (if c = '\x7b' ∧ '\n' = '\x7d' then a ++ h else c :: fmtAux a ('\n' :: h))
          = [c] ++ '\n' :: h
      rw [if_neg hc]
      rw [fmtAux_no_lbrace a ('\n' :: h) (by
        intro x hx
        rcases List.mem_cons.mp hx with rfl | hx'
        · decide
        · exact hh x hx')]
      rfl
    | cons d rest =>
      by_cases hcd : c = '\x7b' ∧ d = '\x7d'
      · show (if c = '\x7b' ∧ d = '\x7d' then a ++ (rest ++ '\n' :: h)
            else c :: fmtAux a (d :: rest ++ '\n' :: h)) = _
        rw [if_pos hcd]
        show a ++ (rest ++ '\n' :: h)
            = (if c = '\x7b' ∧ d = '\x7d' then a ++ rest else c :: fmtAux a (d :: rest))
              ++ '\n' :: h
        rw [if_pos hcd, List.append_assoc]
      · show (if c = '\x7b' ∧ d = '\x7d' then a ++ (rest ++ '\n' :: h)
            else c :: fmtAux a ((d :: rest) ++ '\n' :: h)) = _
        rw [if_neg hcd, ih]
        show c :: (fmtAux a (d :: rest) ++ '\n' :: h)
            = (if c = '\x7b' ∧ d = '\x7d' then a ++ rest else c :: fmtAux a (d :: rest))
              ++ '\n' :: h
        rw [if_neg hcd]
        rfl

lemma string_data_append (x y : String) : (x ++ y).data = x.data ++ y.data := rfl

lemma string_mk_append (x y : List Char) :
    String.mk (x ++ y) = String.mk x ++ String.mk y := rfl

/-- `template.format(arg)` distributes over appending a line that holds
no placeholder. -/
lemma pyFormat_append_line (t h arg : String) (hh : ∀ c ∈ h.data, c ≠ '\x7b') :
    pyFormat (String.intercalate "\n" [t, h]) arg = pyFormat t arg ++ "\n" ++ h := by
  have hint : String.intercalate "\n" [t, h] = t ++ "\n" ++ h := rfl
  rw [hint]
  unfold pyFormat
  have hdata : (t ++ "\n" ++ h).data = t.data ++ '\n' :: h.data := by
    rw [string_data_append, string_data_append,
      show ("\n" : String).data = ['\n'] from rfl, List.append_assoc]
    rfl
  rw [hdata, fmtAux_append_newline arg.data h.data hh t.data]
  rw [show fmtAux arg.data t.data ++ '\n' :: h.data
      = (fmtAux arg.data t.data ++ ['\n']) ++ h.data by simp]
  rw [string_mk_append, string_mk_append]

lemma digitChar_ne_lbrace (d : ℕ) : digitChar d ≠ '\x7b' := by
  unfold digitChar
  repeat' split
  all_goals decide

lemma natStrAux_chars :
    ∀ (fuel n : ℕ) (c : Char), c ∈ natStrAux fuel n → c ≠ '\x7b' := by
  intro fuel
  induction fuel with
  | zero => intro n c hc; simp [natStrAux] at hc
  | succ fuel ih =>
    intro n c hc
    by_cases hn : n = 0
    · simp [natStrAux, hn] at hc
    · rw [show natStrAux (fuel + 1) n
          = if n = 0 then [] else natStrAux fuel (n / 10) ++ [digitChar (n % 10)]
          from rfl, if_neg hn] at hc
      rcases List.mem_append.mp hc with hc' | hc'
      · exact ih (n / 10) c hc'
      · have : c = digitChar (n % 10) := by simpa using hc'
        subst this
        exact digitChar_ne_lbrace (n % 10)

lemma natStr_no_lbrace (n : ℕ) : ∀ c ∈ (natStr n).data, c ≠ '\x7b' := by
  intro c hc
  unfold natStr at hc
  by_cases hn : n = 0
  · rw [if_pos hn] at hc
    have : c = '0' := by simpa using hc
    subst this
    decide
  · rw [if_neg hn] at hc
    exact natStrAux_chars n n c hc

lemma preloadHintLine_no_lbrace (sequence start : ℕ) :
    ∀ c ∈ (preloadHintLine sequence start).data, c ≠ '\x7b' := by
  intro c hc
  unfold preloadHintLine at hc
  rw [string_data_append, string_data_append, string_data_append] at hc
  rcases List.mem_append.mp hc with hc1 | hc1
  · rcases List.mem_append.mp hc1 with hc2 | hc2
    · rcases List.mem_append.mp hc2 with hc3 | hc3
      · intro hceq
        subst hceq
        revert hc3
        decide
      · exact natStr_no_lbrace sequence c hc3
    · intro hceq
      subst hceq
      revert hc2
      decide
  · exact natStr_no_lbrace start c hc1

lemma render_hls_template_preserves (s : Segment) (last : ℕ) (rp : Bool) :
    (render_hls_template s last rp).2.sequence = s.sequence ∧
    (render_hls_template s last rp).2.duration = s.duration ∧
    (render_hls_template s last rp).2.parts_by_byterange = s.parts_by_byterange := by
  unfold render_hls_template
  split
  · exact ⟨rfl, rfl, rfl⟩
  · exact ⟨rfl, rfl, rfl⟩

lemma render_hls_eq_hint (s : Segment) (last : ℕ) :
    render_hls s last true true
      = (pyFormat
          (String.intercalate "\n"
            [(render_hls_template s last true).1,
              preloadHintLine
                (if (render_hls_template s last true).2.complete then
                  (render_hls_template s last true).2.sequence + 1
                else (render_hls_template s last true).2.sequence)
                (if (render_hls_template s last true).2.complete then 0
                else (render_hls_template s last true).2.data_size)])
          (render_hls_template s last true).2.hls_playlist_parts,
        (render_hls_template s last true).2) := rfl

lemma render_hls_eq_nohint (s : Segment) (last : ℕ) (rp : Bool) :
    render_hls s last rp false
      = (pyFormat (render_hls_template s last rp).1
          (if rp then (render_hls_template s last rp).2.hls_playlist_parts else ""),
        (render_hls_template s last rp).2) := rfl

/-- Claim C6: with `render_parts` true, requesting `add_hint` appends
exactly one preload-hint line, pointing at offset 0 of `sequence + 1`
when the segment is complete and at the current `data_size` of this
segment otherwise. -/
theorem render_hls_hint_line (s : Segment) (last : ℕ) :
    (render_hls s last true true).1
      = (render_hls s last true false).1 ++ "\n"
        ++ preloadHintLine (if s.complete then s.sequence + 1 else s.sequence)
            (if s.complete then 0 else s.data_size) := by
  obtain ⟨hseq, hdur, hparts⟩ := render_hls_template_preserves s last true
  have hcomp : (render_hls_template s last true).2.complete = s.complete := by
    unfold complete
    rw [hdur]
  have hdsz : (render_hls_template s last true).2.data_size = s.data_size := by
    unfold data_size
    rw [hparts]
  rw [render_hls_eq_hint, render_hls_eq_nohint]
  show pyFormat
      (String.intercalate "\n"
        [(render_hls_template s last true).1,
          preloadHintLine _ _])
      (render_hls_template s last true).2.hls_playlist_parts
    = pyFormat (render_hls_template s last true).1
        (if true then (render_hls_template s last true).2.hls_playlist_parts else "")
      ++ "\n" ++ preloadHintLine _ _
  rw [if_pos rfl]
  rw [pyFormat_append_line _ _ _ (preloadHintLine_no_lbrace _ _)]
  rw [hcomp, hseq, hdsz]

/-! ### Claim C2: the discontinuity marker across completion

`_render_hls_template` caches the template as a single joined string
(`hls_playlist_template : str`).  On the render that first observes
`complete`, the code runs `playlist_template.pop()` intending to drop
the `"\x7b\x7d"` placeholder line (see the source comments around the
`pop`), but when the template list was rebuilt from the cached string
it holds that whole string as its only element, so the `pop` discards
the entire cached template — including a previously rendered
`#EXT-X-DISCONTINUITY` marker. -/

/-- Failing input for claim C2: a segment with `stream_id = 1` rendered
against `last_stream_id = 0` while incomplete (one part)... -/
def cxHlsSeg1 : Segment :=
  (async_add_part (newSegment 0 [] 0 1 ⟨2021, 1, 2, 3, 4, 5, 123456⟩)
    ⟨0, true, [1]⟩ 0 []).1

/-- ... then completed by a second part with duration 2 after that
first render. -/
def cxHlsSeg2 : Segment :=
  (async_add_part (render_hls cxHlsSeg1 0 true false).2 ⟨2, false, [3]⟩ 2 []).1

set_option maxRecDepth 10000 in
/-- Claim C2 evidence: on the failing input, the render made while the
segment was incomplete contains the `#EXT-X-DISCONTINUITY` line, but
the render made after completion does not, even though the segment's
`stream_id` (1) still differs from `last_stream_id` (0) — the `pop` on
the string-cached template discarded the marker. -/
theorem discontinuity_lost_after_completion :
    ((hlsLines (render_hls cxHlsSeg1 0 true false).1).contains
        "#EXT-X-DISCONTINUITY" = true) ∧
    cxHlsSeg2.stream_id ≠ 0 ∧
    cxHlsSeg2.complete = true ∧
    ((hlsLines (render_hls cxHlsSeg2 0 true false).1).contains
        "#EXT-X-DISCONTINUITY" = false) := by
  decide

/-- Claim C5: calling `render_hls` twice with the same arguments and no
intervening `add_part` returns byte-identical text both times. -/
theorem render_hls_repeat_identical (s : Segment) (last : ℕ) (rp ah : Bool) :
    (render_hls (render_hls s last rp ah).2 last rp ah).1
      = (render_hls s last rp ah).1 := by
  rw [render_hls_snd s last rp ah]
  show (render_hls (render_hls_template s last rp).2 last rp ah).1
      = (render_hls s last rp ah).1
  unfold render_hls
  rw [render_hls_template_stable s last rp]

end Segment

/-! ### Claim C1: byte-range reconstruction via `get_aggregating_bytes` -/

namespace Segment

/-- The canonical offset map that `async_add_part` builds: each part is
keyed by the cumulative size of the parts before it. -/
def withOffsets (b : ℕ) : List Part → List (ℕ × Part)
  | [] => []
  | p :: ps => (b, p) :: withOffsets (b + p.data.length) ps

/-- Total byte size of a list of parts. -/
def sizeOfParts (l : List Part) : ℕ := (l.map (fun p => p.data.length)).sum

lemma sizeOfParts_append (a b : List Part) :
    sizeOfParts (a ++ b) = sizeOfParts a + sizeOfParts b := by
  simp [sizeOfParts]

lemma withOffsets_map_snd (b : ℕ) :
    ∀ ps : List Part, (withOffsets b ps).map (fun e => e.2) = ps := by
  intro ps
  induction ps generalizing b with
  | nil => rfl
  | cons p tl ih =>
    show (b, p).2 :: (withOffsets (b + p.data.length) tl).map (fun e => e.2) = p :: tl
    rw [ih]

lemma length_withOffsets (b : ℕ) :
    ∀ ps : List Part, (withOffsets b ps).length = ps.length := by
  intro ps
  induction ps generalizing b with
  | nil => rfl
  | cons p tl ih =>
    show (withOffsets (b + p.data.length) tl).length + 1 = tl.length + 1
    rw [ih]

lemma withOffsets_key_lt (b : ℕ) :
    ∀ ps : List Part, (∀ p ∈ ps, p.data ≠ []) →
      ∀ e ∈ withOffsets b ps, e.1 < b + sizeOfParts ps := by
  intro ps
  induction ps generalizing b with
  | nil => intro _ e he; simp [withOffsets] at he
  | cons p tl ih =>
    intro hne e he
    have hp : p.data.length ≠ 0 := by
      simpa using (fun h => hne p (by simp) (List.eq_nil_of_length_eq_zero h))
    rcases List.mem_cons.mp he with rfl | he'
    · show b < b + sizeOfParts (p :: tl)
      have : sizeOfParts (p :: tl) = p.data.length + sizeOfParts tl := by
        simp [sizeOfParts]
      omega
    · have := ih (b + p.data.length) (fun q hq => hne q (List.mem_cons_of_mem _ hq)) e he'
      have hsz : sizeOfParts (p :: tl) = p.data.length + sizeOfParts tl := by
        simp [sizeOfParts]
      omega

lemma dictGet_past_end (b : ℕ) (ps : List Part) (hne : ∀ p ∈ ps, p.data ≠ [])
    (k : ℕ) (hk : b + sizeOfParts ps ≤ k) :
    dictGet (withOffsets b ps) k = none := by
  unfold dictGet
  rw [List.find?_eq_none.mpr]
  · rfl
  · intro e he
    have := withOffsets_key_lt b ps hne e he
    simp only [decide_eq_true_eq]
    omega

lemma dictGet_withOffsets (b : ℕ) :
    ∀ (pre : List Part) (p : Part) (tl : List Part),
      (∀ q ∈ pre, q.data ≠ []) →
      dictGet (withOffsets b (pre ++ p :: tl)) (b + sizeOfParts pre) = some p := by
  intro pre
  induction pre generalizing b with
  | nil =>
    intro p tl _
    show dictGet ((b, p) :: withOffsets (b + p.data.length) tl) (b + sizeOfParts []) = some p
    have hb : b + sizeOfParts [] = b := by simp [sizeOfParts]
    rw [hb]
    unfold dictGet
    rw [List.find?_cons_of_pos]
    · rfl
    · simp
  | cons q pre' ih =>
    intro p tl hne
    have hq : q.data.length ≠ 0 := by
      simpa using (fun h => hne q (by simp) (List.eq_nil_of_length_eq_zero h))
    show dictGet ((b, q) :: withOffsets (b + q.data.length) (pre' ++ p :: tl))
        (b + sizeOfParts (q :: pre')) = some p
    have hsz : sizeOfParts (q :: pre') = q.data.length + sizeOfParts pre' := by
      simp [sizeOfParts]
    unfold dictGet
    rw [List.find?_cons_of_neg]
    · have ih' := ih (b + q.data.length) p tl
        (fun r hr => hne r (List.mem_cons_of_mem _ hr))
      unfold dictGet at ih'
      rw [show b + sizeOfParts (q :: pre')
          = b + q.data.length + sizeOfParts pre' by omega]
      exact ih'
    · simp only [decide_eq_true_eq]
      omega

lemma dsizeL_withOffsets (p : Part) :
    ∀ (tl : List Part) (b : ℕ),
      dsizeL (withOffsets b (p :: tl)) = b + sizeOfParts (p :: tl) := by
  intro tl
  induction tl generalizing p with
  | nil =>
    intro b
    show dsizeL [(b, p)] = b + sizeOfParts [p]
    simp [dsizeL, sizeOfParts]
  | cons q tl' ih =>
    intro b
    show dsizeL ((b, p) :: withOffsets (b + p.data.length) (q :: tl'))
        = b + sizeOfParts (p :: q :: tl')
    have : dsizeL ((b, p) :: withOffsets (b + p.data.length) (q :: tl'))
        = dsizeL (withOffsets (b + p.data.length) (q :: tl')) := by
      unfold dsizeL
      rw [show withOffsets (b + p.data.length) (q :: tl')
          = (b + p.data.length, q) :: withOffsets (b + p.data.length + q.data.length) tl'
          from rfl]
      rw [List.getLast?_cons_cons]
    rw [this, ih q (b + p.data.length)]
    have h1 : sizeOfParts (p :: q :: tl') = p.data.length + sizeOfParts (q :: tl') := by
      simp [sizeOfParts]
    omega

lemma data_size_withOffsets (s : Segment) (ps : List Part)
    (hps : s.parts_by_byterange = withOffsets 0 ps) :
    s.data_size = sizeOfParts ps := by
  rw [data_size_eq, hps]
  cases ps with
  | nil => rfl
  | cons p tl =>
    rw [dsizeL_withOffsets p tl 0]
    omega

lemma get_data_withOffsets (s : Segment) (ps : List Part)
    (hps : s.parts_by_byterange = withOffsets 0 ps) :
    s.get_data = (ps.map (fun p => p.data)).flatten := by
  unfold get_data
  rw [hps]
  congr 1
  calc (withOffsets 0 ps).map (fun e => e.2.data)
      = ((withOffsets 0 ps).map (fun e => e.2)).map (fun p => p.data) := by
        rw [List.map_map]
        rfl
    _ = ps.map (fun p => p.data) := by rw [withOffsets_map_snd]

lemma length_flat_parts (l : List Part) :
    ((l.map (fun p => p.data)).flatten).length = sizeOfParts l := by
  rw [List.length_flatten, List.map_map]
  rfl

lemma drop_take_append (A B : Bytes) (endl : ℕ) (h : A.length ≤ endl) :
    ((A ++ B).take endl).drop A.length = B.take (endl - A.length) := by
  rw [List.take_append_eq_append_take, List.take_of_length_le h,
    List.drop_append_eq_append_drop]
  simp

/-- One unfolding step of the generator loop. -/
lemma agg_step (s : Segment) (fuel pos end_loc : ℕ) :
    get_aggregating_bytes s (fuel + 1) pos end_loc =
      match dictGet s.parts_by_byterange pos with
      | none =>
        if s.complete then some []
        else (get_aggregating_bytes s fuel pos end_loc).map (fun rest => [] :: rest)
      | some part =>
        if end_loc ≤ pos + part.data.length then
          some [pySliceTo part.data ((part.data.length : ℤ) + (end_loc : ℤ)
            - ((pos + part.data.length : ℕ) : ℤ))]
        else (get_aggregating_bytes s fuel (pos + part.data.length) end_loc).map
          (fun rest => part.data :: rest) := rfl

/-- The generator walk: starting at the cumulative offset of a prefix
of the parts, `get_aggregating_bytes` yields exactly the requested
slice of the reconstructed data (complete segment, non-empty parts). -/
lemma agg_walk (s : Segment) (ps : List Part)
    (hps : s.parts_by_byterange = withOffsets 0 ps)
    (hne : ∀ p ∈ ps, p.data ≠ [])
    (hc : s.complete = true) :
    ∀ (suf pre : List Part), ps = pre ++ suf →
      ∀ end_loc, sizeOfParts pre ≤ end_loc → end_loc ≤ sizeOfParts ps →
      ∃ chunks,
        get_aggregating_bytes s (suf.length + 1) (sizeOfParts pre) end_loc
            = some chunks ∧
        chunks.flatten
            = (((ps.map (fun p => p.data)).flatten).take end_loc).drop
                (sizeOfParts pre) := by
  intro suf
  induction suf with
  | nil =>
    intro pre hpre end_loc hle hend
    rw [List.append_nil] at hpre
    subst hpre
    have hEnd : end_loc = sizeOfParts ps := le_antisymm hend hle
    subst hEnd
    refine ⟨[], ?_, ?_⟩
    · rw [agg_step, hps, dictGet_past_end 0 ps hne (sizeOfParts ps) (by omega)]
      simp [hc]
    · rw [List.drop_eq_nil_of_le]
      · rfl
      · rw [List.length_take, length_flat_parts]
        omega
  | cons p tl ih =>
    intro pre hpre end_loc hle hend
    have hget : dictGet s.parts_by_byterange (sizeOfParts pre) = some p := by
      rw [hps, hpre]
      rw [show sizeOfParts pre = 0 + sizeOfParts pre by omega]
      exact dictGet_withOffsets 0 pre p tl
        (fun q hq => hne q (by rw [hpre]; exact List.mem_append_left _ hq))
    have hflat : (ps.map (fun q => q.data)).flatten
        = ((pre.map (fun q => q.data)).flatten)
            ++ (p.data ++ ((tl.map (fun q => q.data)).flatten)) := by
      rw [hpre]
      simp
    have hlenA : ((pre.map (fun q => q.data)).flatten).length = sizeOfParts pre :=
      length_flat_parts pre
    by_cases hstop : end_loc ≤ sizeOfParts pre + p.data.length
    · -- the walk ends inside (or exactly at the end of) this part
      have harg : (p.data.length : ℤ) + (end_loc : ℤ)
          - ((sizeOfParts pre + p.data.length : ℕ) : ℤ)
            = ((end_loc - sizeOfParts pre : ℕ) : ℤ) := by
        push_cast
        omega
      refine ⟨[p.data.take (end_loc - sizeOfParts pre)], ?_, ?_⟩
      · rw [agg_step, hget]
        show (if end_loc ≤ sizeOfParts pre + p.data.length then
            some [pySliceTo p.data ((p.data.length : ℤ) + (end_loc : ℤ)
              - ((sizeOfParts pre + p.data.length : ℕ) : ℤ))]
          else (get_aggregating_bytes s (tl.length + 1)
              (sizeOfParts pre + p.data.length) end_loc).map
            (fun rest => p.data :: rest)) = _
        rw [if_pos hstop, harg]
        unfold pySliceTo
        rw [if_pos (by positivity), Int.toNat_natCast]
      · have hA : ((pre.map (fun q => q.data)).flatten).length ≤ end_loc := by
          rw [hlenA]
          exact hle
        rw [hflat, show sizeOfParts pre
            = ((pre.map (fun q => q.data)).flatten).length from hlenA.symm,
          drop_take_append _ _ end_loc hA, hlenA]
        rw [List.take_append_eq_append_take,
          show end_loc - sizeOfParts pre - p.data.length = 0 by omega]
        simp
    · -- the walk continues past this part
      have hpos : sizeOfParts (pre ++ [p]) = sizeOfParts pre + p.data.length := by
        rw [sizeOfParts_append]
        simp [sizeOfParts]
      obtain ⟨rest, hrest, hflatrest⟩ := ih (pre ++ [p])
        (by rw [hpre, List.append_assoc]; rfl) end_loc (by omega) hend
      rw [hpos] at hrest
      refine ⟨p.data :: rest, ?_, ?_⟩
      · rw [agg_step, hget]
        show (if end_loc ≤ sizeOfParts pre + p.data.length then
            some [pySliceTo p.data ((p.data.length : ℤ) + (end_loc : ℤ)
              - ((sizeOfParts pre + p.data.length : ℕ) : ℤ))]
          else (get_aggregating_bytes s (tl.length + 1)
              (sizeOfParts pre + p.data.length) end_loc).map
            (fun rest => p.data :: rest)) = _
        rw [if_neg hstop, hrest]
        rfl
      · have hflat' : (ps.map (fun q => q.data)).flatten
            = (((pre ++ [p]).map (fun q => q.data)).flatten)
              ++ ((tl.map (fun q => q.data)).flatten) := by
          rw [hpre]
          simp
        have hlenA' : (((pre ++ [p]).map (fun q => q.data)).flatten).length
            = sizeOfParts (pre ++ [p]) := length_flat_parts _
        have hA' : (((pre ++ [p]).map (fun q => q.data)).flatten).length ≤ end_loc := by
          rw [hlenA', hpos]
          omega
        have hA : ((pre.map (fun q => q.data)).flatten).length ≤ end_loc := by
          rw [hlenA]
          omega
        show p.data ++ rest.flatten = _
        rw [hflatrest]
        conv_lhs => rw [hflat', show sizeOfParts (pre ++ [p])
            = (((pre ++ [p]).map (fun q => q.data)).flatten).length from hlenA'.symm,
          drop_take_append _ _ end_loc hA', hlenA', hpos]
        conv_rhs => rw [hflat, show sizeOfParts pre
            = ((pre.map (fun q => q.data)).flatten).length from hlenA.symm,
          drop_take_append _ _ end_loc hA, hlenA]
        rw [List.take_append_eq_append_take,
          List.take_of_length_le (by omega : p.data.length ≤ end_loc - sizeOfParts pre)]
        rw [Nat.sub_sub]

/-- More fuel never changes a result the generator already reached. -/
lemma agg_fuel_mono (s : Segment) :
    ∀ (fuel fuel' pos end_loc : ℕ) (r : List Bytes),
      get_aggregating_bytes s fuel pos end_loc = some r → fuel ≤ fuel' →
      get_aggregating_bytes s fuel' pos end_loc = some r := by
  intro fuel
  induction fuel with
  | zero =>
    intro fuel' pos end_loc r hr
    simp [get_aggregating_bytes] at hr
  | succ fuel ih =>
    intro fuel' pos end_loc r hr hle
    obtain ⟨fuel'', rfl⟩ : ∃ k, fuel' = k + 1 := by
      cases fuel' with
      | zero => omega
      | succ k => exact ⟨k, rfl⟩
    rw [agg_step] at hr ⊢
    rcases hgetc : dictGet s.parts_by_byterange pos with _ | part
    · simp only [hgetc] at hr ⊢
      by_cases hcomp : s.complete
      · rw [if_pos hcomp] at hr ⊢
        exact hr
      · rw [if_neg hcomp] at hr ⊢
        obtain ⟨r0, hr0, rfl⟩ := Option.map_eq_some'.mp hr
        rw [ih fuel'' pos end_loc r0 hr0 (by omega)]
        rfl
    · simp only [hgetc] at hr ⊢
      by_cases hstop : end_loc ≤ pos + part.data.length
      · rw [if_pos hstop] at hr ⊢
        exact hr
      · rw [if_neg hstop] at hr ⊢
        obtain ⟨r0, hr0, rfl⟩ := Option.map_eq_some'.mp hr
        rw [ih fuel'' (pos + part.data.length) end_loc r0 hr0 (by omega)]
        rfl

lemma mem_keys_withOffsets (k : ℕ) :
    ∀ (ps : List Part) (b : ℕ), k ∈ (withOffsets b ps).map Prod.fst →
      ∃ pre p suf, ps = pre ++ p :: suf ∧ k = b + sizeOfParts pre := by
  intro ps
  induction ps with
  | nil => intro b hk; simp [withOffsets] at hk
  | cons p tl ih =>
    intro b hk
    rw [show withOffsets b (p :: tl)
        = (b, p) :: withOffsets (b + p.data.length) tl from rfl,
      List.map_cons] at hk
    rcases List.mem_cons.mp hk with hk0 | hk'
    · exact ⟨[], p, tl, rfl, by simpa [sizeOfParts] using hk0⟩
    · obtain ⟨pre', q, suf', htl, hkey⟩ := ih (b + p.data.length) hk'
      refine ⟨p :: pre', q, suf', by rw [htl, List.cons_append], ?_⟩
      have : sizeOfParts (p :: pre') = p.data.length + sizeOfParts pre' := by
        simp [sizeOfParts]
      omega

/-- Claim C1 (amended): for a complete segment whose part map is the
canonical offset map of non-empty parts, and a `start` that is either a
stored byte offset or `data_size`, with `start ≤ end ≤ data_size`, the
chunks yielded by `get_aggregating_bytes(start, end)` concatenate to
exactly `get_data()[start:end]` (any fuel of at least one more than the
number of stored parts reaches the generator's termination). -/
theorem agg_bytes_matches_slice (s : Segment) (ps : List Part)
    (start end_loc fuel : ℕ)
    (hps : s.parts_by_byterange = withOffsets 0 ps)
    (hne : ∀ p ∈ ps, p.data ≠ [])
    (hc : s.complete = true)
    (hstart : start = s.data_size ∨ start ∈ s.parts_by_byterange.map Prod.fst)
    (h1 : start ≤ end_loc) (h2 : end_loc ≤ s.data_size)
    (hfuel : s.parts_by_byterange.length + 1 ≤ fuel) :
    ∃ chunks, get_aggregating_bytes s fuel start end_loc = some chunks ∧
      chunks.flatten = ((s.get_data).take end_loc).drop start := by
  have hdsz : s.data_size = sizeOfParts ps := data_size_withOffsets s ps hps
  have hlen : s.parts_by_byterange.length = ps.length := by
    rw [hps, length_withOffsets]
  obtain ⟨pre, suf, hdecomp, hstart'⟩ :
      ∃ pre suf, ps = pre ++ suf ∧ start = sizeOfParts pre := by
    rcases hstart with h | h
    · exact ⟨ps, [], by simp, by rw [h, hdsz]⟩
    · rw [hps] at h
      obtain ⟨pre, p, suf, hdecomp, hkey⟩ := mem_keys_withOffsets start ps 0 h
      exact ⟨pre, p :: suf, hdecomp, by omega⟩
  subst hstart'
  obtain ⟨chunks, hchunks, hflat⟩ := agg_walk s ps hps hne hc suf pre hdecomp end_loc
    h1 (by rw [← hdsz]; exact h2)
  refine ⟨chunks, ?_, ?_⟩
  · refine agg_fuel_mono s (suf.length + 1) fuel (sizeOfParts pre) end_loc chunks
      hchunks ?_
    have : suf.length ≤ ps.length := by
      rw [hdecomp]
      simp
    omega
  · rw [hflat, get_data_withOffsets s ps hps]

/-- Concrete parts (2 and 3 bytes) for the claim C1 witness. -/
def cxAggParts : List Part := [⟨0, true, [1, 2]⟩, ⟨2, false, [3, 4, 5]⟩]

/-- A complete segment holding `cxAggParts` at their canonical offsets. -/
def cxAggOkSeg : Segment :=
  { sequence := 0, init := [], duration := 1, stream_id := 0,
    parts_by_byterange := withOffsets 0 cxAggParts,
    start_time := ⟨2021, 1, 1, 0, 0, 0, 0⟩, hls_playlist_template := "",
    hls_playlist_parts := "", hls_num_parts_rendered := 0,
    hls_playlist_complete := false }

/-- Witness for claim C1 (amended) at `start = 2` (a stored offset) and
`end = 4`, with fuel 3. -/
theorem agg_bytes_matches_slice_witness :
    (cxAggOkSeg.parts_by_byterange = withOffsets 0 cxAggParts ∧
      (∀ p ∈ cxAggParts, p.data ≠ []) ∧
      cxAggOkSeg.complete = true ∧
      ((2 : ℕ) = cxAggOkSeg.data_size ∨
        2 ∈ cxAggOkSeg.parts_by_byterange.map Prod.fst) ∧
      (2 : ℕ) ≤ 4 ∧ 4 ≤ cxAggOkSeg.data_size ∧
      cxAggOkSeg.parts_by_byterange.length + 1 ≤ 3) ∧
    ∃ chunks, get_aggregating_bytes cxAggOkSeg 3 2 4 = some chunks ∧
      chunks.flatten = ((cxAggOkSeg.get_data).take 4).drop 2 :=
  ⟨⟨rfl, by decide, by decide, Or.inr (by decide), by decide, by decide, by decide⟩,
    agg_bytes_matches_slice cxAggOkSeg cxAggParts 2 4 3 rfl (by decide) (by decide)
      (Or.inr (by decide)) (by decide) (by decide) (by decide)⟩

/-- A complete segment with a single two-byte part. -/
def cxAggSeg : Segment :=
  { sequence := 0, init := [], duration := 1, stream_id := 0,
    parts_by_byterange := [(0, ⟨1, false, [10, 11]⟩)],
    start_time := ⟨2021, 1, 1, 0, 0, 0, 0⟩, hls_playlist_template := "",
    hls_playlist_parts := "", hls_num_parts_rendered := 0,
    hls_playlist_complete := false }

/-- Claim C1 counterexample: on a complete segment with one part of two
bytes, `get_aggregating_bytes(1, 2)` — `0 ≤ 1 ≤ 2 ≤ data_size`, but
`1` falls strictly inside the stored part — terminates immediately and
yields no chunks, while `get_data()[1:2]` is one byte, so the
concatenation does not equal the slice. -/
theorem agg_bytes_midpart_start_counterexample :
    cxAggSeg.complete = true ∧ cxAggSeg.data_size = 2 ∧
    get_aggregating_bytes cxAggSeg 5 1 2 = some [] ∧
    ((cxAggSeg.get_data).take 2).drop 1 = [11] ∧
    (([] : List Bytes).flatten ≠ ((cxAggSeg.get_data).take 2).drop 1) := by
  refine ⟨by decide, by decide, ?_, by decide, by decide⟩
  decide

end Segment

end HAStream
